import Mathlib

/-!
Verification of the anonymous sealed-bid auction protocol core
(`src/utils/crypto.py`, `src/auctioneer.py`).

Modelling conventions:
* Byte strings are `List Nat` with entries below 256.
* Python's `int.from_bytes` / `int.to_bytes` use `sys.byteorder`, which is
  little-endian on the reference platform (x86-64); they are modelled
  little-endian.  `to_bytes` truncates values that do not fit (Python would
  raise `OverflowError`; every value the program converts fits, and the
  theorems that depend on it carry the corresponding bounds as hypotheses).
* `hashlib.sha256` and the PKCS1-OAEP block cipher of pycryptodome are
  external libraries, not code of this repository; they are passed as
  function parameters (`sha` for the 32-byte digest, `block_encrypt` /
  `block_decrypt` for the per-block cipher), with their documented
  properties as hypotheses where a proof needs them.
* Python's `reduce(bytes.__add__, ...)` raises `TypeError` on an empty
  sequence; functions that can hit it return `Option`, `none` being the
  uncaught exception.  Likewise ring-signature verification raises
  `IndexError` when the signature splits into fewer than `n + 1` blocks;
  `verify` returns `Option Bool`, `none` being that exception.
-/

namespace Asba

/-- Byte strings: lists of naturals, each below 256. -/
abbrev Bytes := List Nat

/-- Little-endian `int.from_bytes(l, sys.byteorder)` on the reference platform. -/
def from_bytes (l : Bytes) : Nat :=
  l.foldr (fun b acc => b + 256 * acc) 0

/-- Little-endian `x.to_bytes(len, sys.byteorder)` on the reference platform.
Truncates when `x` does not fit in `len` bytes (Python raises instead;
the program only converts values that fit). -/
def to_bytes (x : Nat) : Nat → Bytes
  | 0 => []
  | len + 1 => x % 256 :: to_bytes (x / 256) len

/-- Fuel-driven worker for `chunks` (structural recursion so that the kernel
can evaluate it). -/
def chunks_go (size : Nat) : Nat → Bytes → List Bytes
  | _, [] => []
  | 0, _ :: _ => []
  | fuel + 1, a :: t => (a :: t).take size :: chunks_go size fuel ((a :: t).drop size)

/-- The Python chunking idiom `[msg[i : i + size] for i in range(0, len(msg), size)]`
used by `encrypt`, `decrypt` and `verify`. -/
def chunks (size : Nat) (l : Bytes) : List Bytes :=
  chunks_go size l.length l

/-- An RSA key as used by the code: modulus `n`, public exponent `e`,
private exponent `d` (`d` is only meaningful for the signer's own key). -/
structure RsaKey where
  n : Nat
  e : Nat
  d : Nat
deriving DecidableEq

/-- Fallback key for out-of-range list indexing (never reached by the code,
which indexes inside the ring). -/
def dummyKey : RsaKey := ⟨0, 0, 0⟩

/-- Embeds `__RSA_mult(x, e, n) = pow(x, e, n)` from `src/utils/crypto.py`. -/
def RSA_mult (x e n : Nat) : Nat := x ^ e % n

/-- Embeds `__E_k(msg, k) = int.from_bytes(sha256(msg + k).digest(), byteorder)`. -/
def E_k (sha : Bytes → Bytes) (msg k : Bytes) : Nat :=
  from_bytes (sha (msg ++ k))

/-- One step of the ring walk in `sign`: `v = E_k((v ^ y_i).to_bytes(256), k)`
with `y_i = x_i^{e_i} mod n_i`. -/
def sign_step (sha : Bytes → Bytes) (keys : List RsaKey) (xs : Nat → Nat)
    (k : Bytes) (v i : Nat) : Nat :=
  E_k sha (to_bytes (v ^^^ RSA_mult (xs i) (keys.getD i dummyKey).e (keys.getD i dummyKey).n) 256) k

/-- The initial walk value of `sign`: `v = E_k(v_prime.to_bytes(256), k)`. -/
def sign_v0 (sha : Bytes → Bytes) (msg : Bytes) (v_prime : Nat) : Nat :=
  E_k sha (to_bytes v_prime 256) (sha msg)

/-- The glue value of `sign`: the walk value after the first loop, over ring
indices `s + 1, ..., len(keys) - 1`. -/
def sign_glue (sha : Bytes → Bytes) (keys : List RsaKey) (s : Nat) (msg : Bytes)
    (v_prime : Nat) (xs : Nat → Nat) : Nat :=
  (List.range' (s + 1) (keys.length - (s + 1))).foldl
    (sign_step sha keys xs (sha msg)) (sign_v0 sha msg v_prime)

/-- The walk value of `sign` after the second loop, over ring indices
`0, ..., s - 1`. -/
def sign_vend (sha : Bytes → Bytes) (keys : List RsaKey) (s : Nat) (msg : Bytes)
    (v_prime : Nat) (xs : Nat → Nat) : Nat :=
  (List.range' 0 s).foldl
    (sign_step sha keys xs (sha msg)) (sign_glue sha keys s msg v_prime xs)

/-- The signer's closing value `x_s = (v_prime ^ v)^{d_s} mod n_s`. -/
def sign_x_s (sha : Bytes → Bytes) (keys : List RsaKey) (s : Nat) (msg : Bytes)
    (v_prime : Nat) (xs : Nat → Nat) : Nat :=
  RSA_mult (v_prime ^^^ sign_vend sha keys s msg v_prime xs)
    (keys.getD s dummyKey).d (keys.getD s dummyKey).n

/-- The list `signature` of `sign` (the per-index values `x_0, ..., x_{n-1}`). -/
def sign_list (sha : Bytes → Bytes) (keys : List RsaKey) (s : Nat) (msg : Bytes)
    (v_prime : Nat) (xs : Nat → Nat) : List Nat :=
  (List.range keys.length).map
    (fun i => if i = s then sign_x_s sha keys s msg v_prime xs else xs i)

/-- Embeds `sign(keys, s, msg)` from `src/utils/crypto.py`.  The calls to
`randint(0, 2**256 - 1)` are made explicit: `v_prime` is the seed and
`xs i` the value drawn for ring position `i`.  The glue value and every
`x_i` are emitted as 256-byte fields and concatenated. -/
def sign (sha : Bytes → Bytes) (keys : List RsaKey) (s : Nat) (msg : Bytes)
    (v_prime : Nat) (xs : Nat → Nat) : Bytes :=
  ((sign_glue sha keys s msg v_prime xs :: sign_list sha keys s msg v_prime xs).map
    (fun x => to_bytes x 256)).flatten

/-- Embeds `verify(signature, msg, keys)` from `src/utils/crypto.py`.
`none` models the `IndexError` raised when the signature splits into fewer
than `len(keys) + 1` blocks of 256 bytes (the list comprehension accesses
`signature[index + 1]` for every ring index, and the fold `signature[0]`). -/
def verify (sha : Bytes → Bytes) (signature : Bytes) (msg : Bytes)
    (keys : List RsaKey) : Option Bool :=
  let k := sha msg
  let sig := (chunks 256 signature).map from_bytes
  if sig.length < keys.length + 1 then none
  else
    let y := (List.range keys.length).map
      (fun i => RSA_mult (sig.getD (i + 1) 0) (keys.getD i dummyKey).e (keys.getD i dummyKey).n)
    let r := (List.range keys.length).foldl
      (fun v i => E_k sha (to_bytes (v ^^^ y.getD i 0) 256) k) (sig.getD 0 0)
    some (r == sig.getD 0 0)

/-- The single error the `commit` primitive can raise (`ValueError` in Python). -/
inductive CommitError
  | random_too_big
deriving DecidableEq

/-- Embeds `commit(msg, r)` from `src/utils/crypto.py`: raises `ValueError`
when `len(r) > 32`, otherwise returns `sha256(msg + r).digest()`. -/
def commit (sha : Bytes → Bytes) (msg r : Bytes) : Except CommitError Bytes :=
  if 32 < r.length then .error .random_too_big
  else .ok (sha (msg ++ r))

/-- Embeds `encrypt(plain, key)` from `src/utils/crypto.py`: split into
214-byte chunks, encrypt each block, concatenate.  `none` models the
`TypeError` that `reduce` raises on the empty block list (empty `plain`). -/
def encrypt (block_encrypt : Bytes → Bytes) (plain : Bytes) : Option Bytes :=
  if plain = [] then none
  else some ((chunks 214 plain).map block_encrypt).flatten

/-- Embeds `decrypt(cipher, key)` from `src/utils/crypto.py`: split into
256-byte blocks, decrypt each, concatenate.  `none` models the `TypeError`
that `reduce` raises on an empty block list (empty `cipher`). -/
def decrypt (block_decrypt : Bytes → Bytes) (cipher : Bytes) : Option Bytes :=
  if cipher = [] then none
  else some ((chunks 256 cipher).map block_decrypt).flatten

/-- Modelled from the spec: `commit_verify` is imported by the auctioneer from
`src.utils.crypto` but is absent from the provided sources; §4.1 specifies
that it recomputes the commitment and compares (`commit(msg, r) == c`). -/
def commit_verify (sha : Bytes → Bytes) (msg r c : Bytes) : Bool :=
  sha (msg ++ r) == c

/-- Modelled from the spec: `parse` is imported from `src.utils.crypto` but is
absent from the provided sources.  §4.5 fixes the layout `sig = sigma ‖ c1 ‖ c2`
with 32-byte commitments, so `sigma` is everything except the last 64 bytes.
`none` is the FormatError of §7(a) for a field too short to split. -/
def parse_sig (sig : Bytes) : Option (Bytes × Bytes × Bytes) :=
  if sig.length < 64 then none
  else some (sig.take (sig.length - 64),
             (sig.drop (sig.length - 64)).take 32,
             sig.drop (sig.length - 32))

/-- Modelled from the spec: splits an opening token `tau = C ‖ d` into the
ciphertext and the 32-byte decommitment nonce; `none` is the FormatError of
§7(a) (in particular the ciphertext part must be non-empty). -/
def parse_tau (tau : Bytes) : Option (Bytes × Bytes) :=
  if tau.length ≤ 32 then none
  else some (tau.take (tau.length - 32), tau.drop (tau.length - 32))

/-- Modelled from the spec: splits `m1 = c ‖ sigma ‖ Sigma ‖ bid ‖ d` (§4.6),
where `c`, `bid`, `d` are 32 bytes and the two ring signatures have equal
width `w = (len - 96) / 2`; `none` is the FormatError of §7(a). -/
def parse_m1 (m1 : Bytes) : Option (Bytes × Bytes × Bytes × Bytes × Bytes) :=
  if m1.length < 96 ∨ (m1.length - 96) % 2 = 1 then none
  else
    let w := (m1.length - 96) / 2
    let rest := m1.drop 32
    some (m1.take 32,
          rest.take w,
          (rest.drop w).take w,
          (rest.drop (2 * w)).take 32,
          rest.drop (2 * w + 32))

/-- Width of an exported RSA-2048 public key (`RSA.exportKey()`), a fixed
agreed field width in the sense of §4.5. -/
def KEY_LEN : Nat := 450

/-- Modelled from the spec: splits
`m2 = c ‖ pub_bidder ‖ pub_auctioneer ‖ sigma ‖ Sigma ‖ delta` (§4.6) and
imports the two keys (`RSA.importKey`, an external library call passed as
the parameter `import_key`).  `c` is 32 bytes, the exported keys `KEY_LEN`
bytes, `delta` is a 2-ring signature of 3 × 256 = 768 bytes, and the two
remaining signatures share the remaining width evenly.  `none` is the
FormatError of §7(a). -/
def parse_m2 (import_key : Bytes → RsaKey) (m2 : Bytes) :
    Option (Bytes × RsaKey × RsaKey × Bytes × Bytes × Bytes) :=
  if m2.length < 32 + 2 * KEY_LEN + 768 ∨ (m2.length - (32 + 2 * KEY_LEN + 768)) % 2 = 1 then
    none
  else
    let rest := m2.drop 32
    let rest2 := rest.drop KEY_LEN
    let rest3 := rest2.drop KEY_LEN
    let w := (rest3.length - 768) / 2
    some (m2.take 32,
          import_key (rest.take KEY_LEN),
          import_key (rest2.take KEY_LEN),
          rest3.take w,
          (rest3.drop w).take w,
          rest3.drop (2 * w))

/-- One tally entry of `Auctioneer.bidders`: `{'bid': ..., 'com': ..., 'decom': ...}`. -/
structure Entry where
  bid : Nat
  com : Bytes
  decom : Bytes
deriving DecidableEq

/-- The auctioneer's mutable state: the tally mapping (a Python dict, i.e.
an insertion-ordered association list), `winning_com` and `winning_bidder`. -/
structure AuctState where
  bidders : List (String × Entry)
  winning_com : Option Bytes
  winning_bidder : Option RsaKey
deriving DecidableEq

/-- Python dict assignment `self.bidders[address] = entry`: replaces in place
if the key exists, otherwise appends. -/
def insert_bidder : List (String × Entry) → String → Entry → List (String × Entry)
  | [], a, e => [(a, e)]
  | (a0, e0) :: t, a, e =>
    if a0 = a then (a0, e) :: t else (a0, e0) :: insert_bidder t a e

/-- Embeds `Auctioneer.bid_opening` from `src/auctioneer.py`.  Returns
`some (status, state)`; `none` models an exception escaping the method
(the `IndexError` of `verify` on a signature with too few blocks, or the
`TypeError` of `decrypt` on an empty ciphertext).  A parse failure is the
FormatError of §7(a) and rejects the bundle. -/
def bid_opening (sha block_decrypt : Bytes → Bytes) (st : AuctState)
    (address : String) (ring : List RsaKey) (c sig tau_1 : Bytes) :
    Option (Bool × AuctState) :=
  match parse_sig sig with
  | none => some (false, st)
  | some (sigma, c1, _) =>
    match verify sha sigma c ring with
    | none => none
    | some false => some (false, st)
    | some true =>
      match parse_tau tau_1 with
      | none => some (false, st)
      | some (C1, d1) =>
        if commit_verify sha C1 d1 c1 then
          match decrypt block_decrypt C1 with
          | none => none
          | some m1 =>
            match parse_m1 m1 with
            | none => some (false, st)
            | some (c_tilde, sigma_tilde, Sig, bid, d) =>
              if c_tilde = c ∧ sigma_tilde = sigma then
                match verify sha Sig (c ++ sigma) ring with
                | none => none
                | some false => some (false, st)
                | some true =>
                  if commit_verify sha bid d c then
                    some (true, { st with
                      bidders := insert_bidder st.bidders address
                        ⟨from_bytes bid, c, d⟩ })
                  else some (false, st)
              else some (false, st)
        else some (false, st)

/-- Embeds `Auctioneer.identity_opening` from `src/auctioneer.py`.  Returns
`some (status, state)`; `none` models an exception escaping the method. -/
def identity_opening (sha block_decrypt : Bytes → Bytes)
    (import_key : Bytes → RsaKey) (st : AuctState) (sig tau_2 : Bytes) :
    Option (Bool × AuctState) :=
  match parse_sig sig with
  | none => some (false, st)
  | some (_, _, c2) =>
    match parse_tau tau_2 with
    | none => some (false, st)
    | some (C2, d2) =>
      if commit_verify sha C2 d2 c2 then
        match decrypt block_decrypt C2 with
        | none => none
        | some m2 =>
          match parse_m2 import_key m2 with
          | none => some (false, st)
          | some (c, pub_winner, pub_auct, sg, Sg, delta) =>
            if some c = st.winning_com then
              match verify sha delta (c ++ sg ++ Sg) [pub_winner, pub_auct] with
              | none => none
              | some true => some (true, { st with winning_bidder := some pub_winner })
              | some false => some (false, st)
            else some (false, st)
      else some (false, st)

/-- The commitment re-check the tally performs on a stored entry:
`commit_verify(x.to_bytes(32), d, c)`. -/
def entry_ok (sha : Bytes → Bytes) (e : Entry) : Bool :=
  commit_verify sha (to_bytes e.bid 32) e.decom e.com

/-- Embeds `Auctioneer.get_winning_commitment` from `src/auctioneer.py`:
`max_bid` starts at 0, entries failing the commitment re-check are skipped,
and `winning_com` is overwritten whenever a strictly greater bid is seen. -/
def get_winning_commitment (sha : Bytes → Bytes) (st : AuctState) : AuctState :=
  let r := st.bidders.foldl
    (fun acc p =>
      if entry_ok sha p.2 then
        (if acc.1 < p.2.bid then (p.2.bid, some p.2.com) else acc)
      else acc)
    (0, st.winning_com)
  { st with winning_com := r.2 }

/-! Basic properties of the byte conversions. -/

theorem to_bytes_length (x len : Nat) : (to_bytes x len).length = len := by
  induction len generalizing x with
  | zero => rfl
  | succ n ih => simp [to_bytes, ih]

theorem to_bytes_mem_lt (x len : Nat) : ∀ b ∈ to_bytes x len, b < 256 := by
  induction len generalizing x with
  | zero => simp [to_bytes]
  | succ n ih =>
    intro b hb
    simp only [to_bytes, List.mem_cons] at hb
    rcases hb with h | h
    · exact h ▸ Nat.mod_lt _ (by omega)
    · exact ih _ b h

theorem from_bytes_to_bytes {x len : Nat} (h : x < 2 ^ (8 * len)) :
    from_bytes (to_bytes x len) = x := by
  induction len generalizing x with
  | zero =>
    simp only [Nat.mul_zero, pow_zero, Nat.lt_one_iff] at h
    simp [to_bytes, from_bytes, h]
  | succ n ih =>
    have hdiv : x / 256 < 2 ^ (8 * n) := by
      rw [Nat.div_lt_iff_lt_mul (by omega)]
      calc x < 2 ^ (8 * (n + 1)) := h
        _ = 2 ^ (8 * n) * 256 := by rw [Nat.mul_succ, pow_add]; norm_num
    simp only [to_bytes, from_bytes, List.foldr_cons]
    have := ih hdiv
    simp only [from_bytes] at this
    rw [this, Nat.add_comm, Nat.div_add_mod]

theorem from_bytes_lt (l : Bytes) (h : ∀ b ∈ l, b < 256) :
    from_bytes l < 2 ^ (8 * l.length) := by
  induction l with
  | nil => simp [from_bytes]
  | cons b t ih =>
    have hb : b < 256 := h b (by simp)
    have ht : from_bytes t < 2 ^ (8 * t.length) := ih (fun x hx => h x (by simp [hx]))
    simp only [from_bytes, List.foldr_cons, List.length_cons]
    have : 2 ^ (8 * (t.length + 1)) = 2 ^ (8 * t.length) * 256 := by
      rw [Nat.mul_succ, pow_add]; norm_num
    rw [this]
    simp only [from_bytes] at ht
    omega

/-! Basic properties of the chunking idiom. -/

theorem chunks_go_nil (size fuel : Nat) : chunks_go size fuel [] = [] := by
  cases fuel <;> rfl

theorem chunks_go_flatten (size : Nat) (hs : 0 < size) :
    ∀ (bs : List Bytes) (fuel : Nat), (∀ b ∈ bs, b.length = size) →
      bs.flatten.length ≤ fuel → chunks_go size fuel bs.flatten = bs := by
  intro bs
  induction bs with
  | nil => intro fuel _ _; exact chunks_go_nil size fuel
  | cons b t ih =>
    intro fuel hlen hfuel
    have hb : b.length = size := hlen b (by simp)
    have hbne : b ≠ [] := by
      intro h; rw [h] at hb; simp at hb; omega
    simp only [List.flatten_cons] at hfuel ⊢
    obtain ⟨f, rfl⟩ : ∃ f, fuel = f + 1 := by
      refine ⟨fuel - 1, ?_⟩
      have : 0 < (b ++ t.flatten).length := by
        simp only [List.length_append]
        have : 0 < b.length := by omega
        omega
      omega
    obtain ⟨a, b0, rfl⟩ : ∃ a b0, b = a :: b0 := by
      cases b with
      | nil => exact absurd rfl hbne
      | cons a b0 => exact ⟨a, b0, rfl⟩
    have h1 : ((a :: b0) ++ t.flatten).take size = a :: b0 := by
      rw [← hb]; exact List.take_left _ _
    have h2 : ((a :: b0) ++ t.flatten).drop size = t.flatten := by
      rw [← hb]; exact List.drop_left _ _
    show ((a :: b0) ++ t.flatten).take size ::
        chunks_go size f (((a :: b0) ++ t.flatten).drop size) = (a :: b0) :: t
    rw [h1, h2]
    congr 1
    refine ih f (fun x hx => hlen x (by simp [hx])) ?_
    simp only [List.length_append, List.length_cons] at hfuel
    omega

theorem chunks_flatten (size : Nat) (hs : 0 < size) (bs : List Bytes)
    (hlen : ∀ b ∈ bs, b.length = size) :
    chunks size bs.flatten = bs :=
  chunks_go_flatten size hs bs _ hlen (Nat.le_refl _)

theorem chunks_go_join (size : Nat) (hs : 0 < size) :
    ∀ (fuel : Nat) (l : Bytes), l.length ≤ fuel →
      (chunks_go size fuel l).flatten = l := by
  intro fuel
  induction fuel with
  | zero =>
    intro l hl
    have : l = [] := by
      cases l with
      | nil => rfl
      | cons a t => simp at hl
    simp [this, chunks_go_nil]
  | succ f ih =>
    intro l hl
    cases l with
    | nil => simp [chunks_go_nil]
    | cons a t =>
      simp only [chunks_go, List.flatten_cons]
      simp only [List.length_cons] at hl
      rw [ih _ (by simp only [List.length_drop, List.length_cons]; omega)]
      exact List.take_append_drop _ _

theorem chunks_join (size : Nat) (hs : 0 < size) (l : Bytes) :
    (chunks size l).flatten = l :=
  chunks_go_join size hs l.length l (Nat.le_refl _)

theorem chunks_go_length (size : Nat) (hs : 0 < size) :
    ∀ (fuel : Nat) (l : Bytes), l.length ≤ fuel →
      (chunks_go size fuel l).length = (l.length + size - 1) / size := by
  intro fuel
  induction fuel with
  | zero =>
    intro l hl
    have hnil : l = [] := by
      cases l with
      | nil => rfl
      | cons a t => simp at hl
    subst hnil
    rw [chunks_go_nil]
    simp only [List.length_nil, Nat.zero_add]
    exact (Nat.div_eq_of_lt (by omega)).symm
  | succ f ih =>
    intro l hl
    cases l with
    | nil =>
      rw [chunks_go_nil]
      simp only [List.length_nil, Nat.zero_add]
      exact (Nat.div_eq_of_lt (by omega)).symm
    | cons a t =>
      simp only [chunks_go, List.length_cons]
      simp only [List.length_cons] at hl
      rw [ih _ (by simp only [List.length_drop, List.length_cons]; omega)]
      simp only [List.length_drop, List.length_cons]
      rcases Nat.lt_or_ge (t.length + 1) size with hlt | hge
      · rw [show t.length + 1 - size = 0 by omega,
          Nat.div_eq_of_lt (by omega : 0 + size - 1 < size),
          show t.length + 1 + size - 1 = t.length + size by omega,
          Nat.add_div_right _ hs,
          Nat.div_eq_of_lt (by omega : t.length < size)]
      · rw [show t.length + 1 + size - 1 = (t.length + 1 - size + size - 1) + size by omega,
          Nat.add_div_right _ hs]

theorem chunks_length (size : Nat) (hs : 0 < size) (l : Bytes) :
    (chunks size l).length = (l.length + size - 1) / size :=
  chunks_go_length size hs l.length l (Nat.le_refl _)

/-! Machinery for the ring-signature soundness proof. -/

/-- The documented shape of a SHA-256 digest: 32 bytes, each below 256. -/
def sha_ok (sha : Bytes → Bytes) : Prop :=
  ∀ m, (sha m).length = 32 ∧ ∀ b ∈ sha m, b < 256

theorem E_k_lt {sha : Bytes → Bytes} (hsha : sha_ok sha) (msg k : Bytes) :
    E_k sha msg k < 2 ^ 256 := by
  have h := from_bytes_lt (sha (msg ++ k)) (hsha (msg ++ k)).2
  rw [(hsha (msg ++ k)).1] at h
  simpa using h

theorem foldl_sign_step_lt {sha : Bytes → Bytes} (hsha : sha_ok sha)
    (keys : List RsaKey) (xs : Nat → Nat) (k : Bytes) :
    ∀ (l : List Nat) (v : Nat), v < 2 ^ 256 →
      l.foldl (sign_step sha keys xs k) v < 2 ^ 256 := by
  intro l
  induction l with
  | nil => intro v hv; simpa using hv
  | cons i t ih =>
    intro v hv
    simp only [List.foldl_cons]
    exact ih _ (E_k_lt hsha _ _)

theorem getD_map_range {α : Type} (f : Nat → α) (n i : Nat) (d : α) (h : i < n) :
    ((List.range n).map f).getD i d = f i := by
  rw [List.getD_eq_getElem?_getD, List.getElem?_map, List.getElem?_range h]
  rfl

theorem foldl_congr_mem {α β : Type} (f g : β → α → β) (l : List α)
    (h : ∀ b, ∀ a ∈ l, f b a = g b a) : ∀ b, l.foldl f b = l.foldl g b := by
  induction l with
  | nil => intro b; rfl
  | cons a t ih =>
    intro b
    simp only [List.foldl_cons]
    rw [h b a (by simp)]
    exact ih (fun b x hx => h b x (by simp [hx])) _

/-- Shape of `verify` on a signature assembled from `n + 1` integer fields of
256 bytes each: the walk is re-run from the glue field with
`y_i = x_i^{e_i} mod n_i` parsed back out of the byte string. -/
theorem verify_eq_of_fields (sha : Bytes → Bytes) (keys : List RsaKey)
    (msg : Bytes) (ints : List Nat)
    (hlen : ints.length = keys.length + 1)
    (hbound : ∀ z ∈ ints, z < 2 ^ 2048) :
    verify sha ((ints.map (fun x => to_bytes x 256)).flatten) msg keys =
      some (((List.range keys.length).foldl
        (fun v i => E_k sha (to_bytes (v ^^^ RSA_mult (ints.getD (i + 1) 0)
          (keys.getD i dummyKey).e (keys.getD i dummyKey).n) 256) (sha msg))
        (ints.getD 0 0)) == ints.getD 0 0) := by
  have hchunks : chunks 256 ((ints.map (fun x => to_bytes x 256)).flatten) =
      ints.map (fun x => to_bytes x 256) := by
    refine chunks_flatten 256 (by norm_num) _ ?_
    intro b hb
    obtain ⟨z, _, rfl⟩ := List.mem_map.1 hb
    exact to_bytes_length z 256
  have hints : (chunks 256 ((ints.map (fun x => to_bytes x 256)).flatten)).map from_bytes
      = ints := by
    rw [hchunks, List.map_map]
    have : ∀ z ∈ ints, (from_bytes ∘ fun x => to_bytes x 256) z = id z := by
      intro z hz
      have : z < 2 ^ (8 * 256) := by
        have := hbound z hz
        norm_num
        omega
      simpa using from_bytes_to_bytes this
    rw [List.map_congr_left this, List.map_id]
  simp only [verify]
  rw [hints, hlen]
  simp only [Nat.lt_irrefl, if_false]
  congr 1
  have hy : ∀ v : Nat, ∀ i ∈ List.range keys.length,
      E_k sha (to_bytes (v ^^^ ((List.range keys.length).map
        (fun i => RSA_mult (ints.getD (i + 1) 0)
          (keys.getD i dummyKey).e (keys.getD i dummyKey).n)).getD i 0) 256) (sha msg)
      = E_k sha (to_bytes (v ^^^ RSA_mult (ints.getD (i + 1) 0)
          (keys.getD i dummyKey).e (keys.getD i dummyKey).n) 256) (sha msg) := by
    intro v i hi
    rw [getD_map_range _ _ _ _ (List.mem_range.1 hi)]
  rw [foldl_congr_mem _ _ _ hy]

theorem sign_glue_lt {sha : Bytes → Bytes} (hsha : sha_ok sha)
    (keys : List RsaKey) (s : Nat) (msg : Bytes) (v_prime : Nat) (xs : Nat → Nat) :
    sign_glue sha keys s msg v_prime xs < 2 ^ 256 :=
  foldl_sign_step_lt hsha _ _ _ _ _ (E_k_lt hsha _ _)

theorem sign_vend_lt {sha : Bytes → Bytes} (hsha : sha_ok sha)
    (keys : List RsaKey) (s : Nat) (msg : Bytes) (v_prime : Nat) (xs : Nat → Nat) :
    sign_vend sha keys s msg v_prime xs < 2 ^ 256 :=
  foldl_sign_step_lt hsha _ _ _ _ _ (sign_glue_lt hsha _ _ _ _ _)

theorem sign_x_s_lt (sha : Bytes → Bytes) (keys : List RsaKey) (s : Nat)
    (msg : Bytes) (v_prime : Nat) (xs : Nat → Nat)
    (hnpos : 0 < (keys.getD s dummyKey).n) :
    sign_x_s sha keys s msg v_prime xs < (keys.getD s dummyKey).n :=
  Nat.mod_lt _ hnpos

/-- C1.  Ring signature soundness: for every ring of at least 2 RSA keypairs,
every signer index `s` inside the ring whose key is a working RSA keypair
(decrypt-then-encrypt is the identity below the modulus, the modulus being a
2048-bit one, i.e. between `2^256` and `2^2048` here), and every message,
`verify(sign(ring, s, m), m, ring)` returns `True`.  The random draws of
`sign` (`v_prime` and the `x_i`) are arbitrary values below `2^256`, exactly
the range of `randint(0, 2**256 - 1)`. -/
theorem ring_signature_soundness (sha : Bytes → Bytes) (keys : List RsaKey)
    (s : Nat) (msg : Bytes) (v_prime : Nat) (xs : Nat → Nat)
    (hsha : sha_ok sha) (hsize : 2 ≤ keys.length) (hs : s < keys.length)
    (hvp : v_prime < 2 ^ 256) (hxs : ∀ i, xs i < 2 ^ 256)
    (hnlo : 2 ^ 256 ≤ (keys.getD s dummyKey).n)
    (hnhi : (keys.getD s dummyKey).n ≤ 2 ^ 2048)
    (hkey : ∀ y, y < (keys.getD s dummyKey).n →
      RSA_mult (RSA_mult y (keys.getD s dummyKey).d (keys.getD s dummyKey).n)
        (keys.getD s dummyKey).e (keys.getD s dummyKey).n = y) :
    verify sha (sign sha keys s msg v_prime xs) msg keys = some true := by
  have hnpos : 0 < (keys.getD s dummyKey).n :=
    lt_of_lt_of_le (by positivity) hnlo
  have hglue_lt := sign_glue_lt hsha keys s msg v_prime xs
  have hvend_lt := sign_vend_lt hsha keys s msg v_prime xs
  have hys_lt_n : v_prime ^^^ sign_vend sha keys s msg v_prime xs < (keys.getD s dummyKey).n :=
    lt_of_lt_of_le (Nat.xor_lt_two_pow hvp hvend_lt) hnlo
  have hxS_lt := sign_x_s_lt sha keys s msg v_prime xs hnpos
  have hfields : ∀ z ∈ (sign_glue sha keys s msg v_prime xs
      :: sign_list sha keys s msg v_prime xs), z < 2 ^ 2048 := by
    intro z hz
    rcases List.mem_cons.1 hz with rfl | hz
    · exact lt_of_lt_of_le hglue_lt (Nat.pow_le_pow_right (by norm_num) (by norm_num))
    · obtain ⟨i, _, rfl⟩ := List.mem_map.1 hz
      by_cases hi : i = s
      · rw [if_pos hi]
        exact lt_of_lt_of_le hxS_lt hnhi
      · rw [if_neg hi]
        exact lt_of_lt_of_le (hxs i) (Nat.pow_le_pow_right (by norm_num) (by norm_num))
  have hlen : (sign_glue sha keys s msg v_prime xs
      :: sign_list sha keys s msg v_prime xs).length = keys.length + 1 := by
    simp [sign_list]
  rw [show sign sha keys s msg v_prime xs =
      ((sign_glue sha keys s msg v_prime xs :: sign_list sha keys s msg v_prime xs).map
        (fun x => to_bytes x 256)).flatten from rfl,
    verify_eq_of_fields sha keys msg _ hlen hfields]
  rw [List.getD_cons_zero]
  have hF : ∀ v, ∀ i ∈ List.range keys.length,
      E_k sha (to_bytes (v ^^^ RSA_mult
        ((sign_glue sha keys s msg v_prime xs
          :: sign_list sha keys s msg v_prime xs).getD (i + 1) 0)
        (keys.getD i dummyKey).e (keys.getD i dummyKey).n) 256) (sha msg)
      = sign_step sha keys
          (fun i => if i = s then sign_x_s sha keys s msg v_prime xs else xs i)
          (sha msg) v i := by
    intro v i hi
    rw [List.getD_cons_succ]
    unfold sign_list
    rw [getD_map_range _ _ _ _ (List.mem_range.1 hi)]
    rfl
  rw [foldl_congr_mem _ _ _ hF]
  have hsplit : List.range keys.length =
      (List.range' 0 s ++ [s]) ++ List.range' (s + 1) (keys.length - (s + 1)) := by
    rw [List.range_eq_range']
    have h2 : List.range' 0 s ++ List.range' (0 + s) (keys.length - s) =
        List.range' 0 (keys.length - s + s) := List.range'_append_1 0 s (keys.length - s)
    rw [show keys.length - s + s = keys.length by omega] at h2
    rw [← h2, show (0 : Nat) + s = s from by omega,
      show keys.length - s = (keys.length - (s + 1)) + 1 by omega,
      List.range'_succ, List.append_assoc]
    rfl
  rw [hsplit, List.foldl_append, List.foldl_append]
  have hA : (List.range' 0 s).foldl
      (sign_step sha keys
        (fun i => if i = s then sign_x_s sha keys s msg v_prime xs else xs i)
        (sha msg)) (sign_glue sha keys s msg v_prime xs)
      = sign_vend sha keys s msg v_prime xs := by
    unfold sign_vend
    refine foldl_congr_mem _ _ _ ?_ _
    intro v i hi
    have hilt : i < s := by
      have := (List.mem_range'_1.1 hi).2
      omega
    simp only [sign_step]
    rw [if_neg (by omega : ¬ i = s)]
  rw [hA]
  have hB : (List.foldl
      (sign_step sha keys
        (fun i => if i = s then sign_x_s sha keys s msg v_prime xs else xs i)
        (sha msg)) (sign_vend sha keys s msg v_prime xs) [s])
      = sign_v0 sha msg v_prime := by
    simp only [List.foldl_cons, List.foldl_nil, sign_step, eq_self_iff_true, if_true]
    unfold sign_x_s
    rw [hkey _ hys_lt_n]
    rw [Nat.xor_comm v_prime (sign_vend sha keys s msg v_prime xs),
      ← Nat.xor_assoc, Nat.xor_self, Nat.zero_xor]
    rfl
  rw [hB]
  have hC : (List.range' (s + 1) (keys.length - (s + 1))).foldl
      (sign_step sha keys
        (fun i => if i = s then sign_x_s sha keys s msg v_prime xs else xs i)
        (sha msg)) (sign_v0 sha msg v_prime)
      = sign_glue sha keys s msg v_prime xs := by
    unfold sign_glue
    refine foldl_congr_mem _ _ _ ?_ _
    intro v i hi
    have hilt : s + 1 ≤ i := (List.mem_range'_1.1 hi).1
    simp only [sign_step]
    rw [if_neg (by omega : ¬ i = s)]
  rw [hC]
  simp

/-! Concrete instantiations used by witnesses and counterexamples. -/

/-- A concrete stand-in digest function: constant 32 zero bytes. -/
def sha_zero : Bytes → Bytes := fun _ => List.replicate 32 0

/-- A concrete stand-in digest function whose digests decode to the integer 1. -/
def sha_one : Bytes → Bytes := fun _ => 1 :: List.replicate 31 0

/-- A degenerate but mathematically valid RSA key with `e = d = 1` and a
256-bit modulus: decrypt-then-encrypt is the identity below `n`. -/
def key_pow : RsaKey := ⟨2 ^ 256, 1, 1⟩

/-- A tiny key with `e = d = 1` for counterexamples that never use the
keypair property. -/
def key_three : RsaKey := ⟨3, 1, 1⟩

theorem ring_signature_soundness_witness :
    verify sha_zero (sign sha_zero [key_pow, key_pow] 0 [1] 0 (fun _ => 0))
      [1] [key_pow, key_pow] = some true :=
  ring_signature_soundness sha_zero [key_pow, key_pow] 0 [1] 0 (fun _ => 0)
    (by
      intro m
      refine ⟨by simp [sha_zero], ?_⟩
      intro b hb
      simp only [sha_zero, List.mem_replicate] at hb
      omega)
    (by norm_num) (by norm_num) (by positivity) (fun _ => by positivity)
    (Nat.le_refl _)
    (Nat.pow_le_pow_right (by norm_num) (by norm_num))
    (by
      intro y hy
      have hy2 : y < 2 ^ 256 := hy
      show RSA_mult (RSA_mult y 1 (2 ^ 256)) 1 (2 ^ 256) = y
      simp only [RSA_mult, pow_one]
      rw [Nat.mod_eq_of_lt hy2, Nat.mod_eq_of_lt hy2])

/-! Further helper lemmas on chunking and flattening. -/

theorem chunks_go_mem (size : Nat) (hs : 0 < size) :
    ∀ (fuel : Nat) (l b : Bytes), b ∈ chunks_go size fuel l →
      b.length ≤ size ∧ b ≠ [] := by
  intro fuel
  induction fuel with
  | zero =>
    intro l b hb
    cases l with
    | nil => simp [chunks_go] at hb
    | cons a t => simp [chunks_go] at hb
  | succ f ih =>
    intro l b hb
    cases l with
    | nil => simp [chunks_go] at hb
    | cons a t =>
      simp only [chunks_go, List.mem_cons] at hb
      rcases hb with rfl | hb
      · constructor
        · simpa using Nat.min_le_left size (t.length + 1)
        · obtain ⟨k, rfl⟩ : ∃ k, size = k + 1 := ⟨size - 1, by omega⟩
          simp [List.take_succ_cons]
      · exact ih _ _ hb

theorem chunks_mem {size : Nat} (hs : 0 < size) {l b : Bytes}
    (hb : b ∈ chunks size l) : b.length ≤ size ∧ b ≠ [] :=
  chunks_go_mem size hs _ _ _ hb

theorem chunks_ne_nil {size : Nat} (hs : 0 < size) {l : Bytes} (hl : l ≠ []) :
    chunks size l ≠ [] := by
  intro h
  have := chunks_join size hs l
  rw [h] at this
  exact hl this.symm

theorem flatten_length_uniform (L : Nat) (bs : List Bytes)
    (h : ∀ b ∈ bs, b.length = L) : bs.flatten.length = L * bs.length := by
  induction bs with
  | nil => simp
  | cons b t ih =>
    simp only [List.flatten_cons, List.length_append, List.length_cons]
    rw [h b (by simp), ih (fun x hx => h x (by simp [hx]))]
    ring

/-- C8 (amended).  The signature is the concatenation of `n + 1` fields of
exactly 256 bytes (the glue value followed by `x_0, ..., x_{n-1}`), so its
total length is `(n + 1) * 256` bytes for a ring of `n` keys.  The fields
are, however, encoded in the platform byte order (`sys.byteorder`, i.e.
little-endian on the reference platform), not big-endian as the spec says —
see `sign_not_big_endian`. -/
theorem sign_length (sha : Bytes → Bytes) (keys : List RsaKey) (s : Nat)
    (msg : Bytes) (v_prime : Nat) (xs : Nat → Nat) :
    (sign sha keys s msg v_prime xs).length = (keys.length + 1) * 256 := by
  unfold sign
  rw [flatten_length_uniform 256 _ ?_]
  · simp [sign_list, Nat.mul_comm]
  · intro b hb
    obtain ⟨z, _, rfl⟩ := List.mem_map.1 hb
    exact to_bytes_length z 256

/-- Big-endian `x.to_bytes(len, 'big')`: the byte reversal of the
little-endian encoding. -/
def to_bytes_be (x len : Nat) : Bytes := (to_bytes x len).reverse

/-- A second signature serialiser following the spec's words rather than the
source: §4.3 step 7 says the fields are fixed-width big-endian integers.
Identical to `sign` except for the byte order of each field. -/
def sign_be_spec (sha : Bytes → Bytes) (keys : List RsaKey) (s : Nat)
    (msg : Bytes) (v_prime : Nat) (xs : Nat → Nat) : Bytes :=
  ((sign_glue sha keys s msg v_prime xs :: sign_list sha keys s msg v_prime xs).map
    (fun x => to_bytes_be x 256)).flatten

set_option maxRecDepth 4000 in
/-- C8 (counterexample).  At a concrete 2-key ring and digest function the
signature produced by the code differs from the big-endian serialisation the
claim describes: the code writes each field in `sys.byteorder`
(little-endian on the reference platform), so a glue value of 1 puts byte 1
first rather than last. -/
theorem sign_not_big_endian :
    sign sha_one [key_three, key_three] 0 [1] 0 (fun _ => 0) ≠
      sign_be_spec sha_one [key_three, key_three] 0 [1] 0 (fun _ => 0) := by
  decide

/-- Characterisation of the `IndexError` of `verify`: raised exactly when
the signature splits into fewer than `len(keys) + 1` blocks. -/
theorem verify_none_char (sha : Bytes → Bytes) (sig msg : Bytes)
    (keys : List RsaKey) :
    verify sha sig msg keys = none ↔ sig.length ≤ 256 * keys.length := by
  have hlen : ((chunks 256 sig).map from_bytes).length = (sig.length + 256 - 1) / 256 := by
    rw [List.length_map, chunks_length 256 (by norm_num)]
  have harith : ((sig.length + 256 - 1) / 256 < keys.length + 1) ↔
      sig.length ≤ 256 * keys.length := by
    rw [Nat.div_lt_iff_lt_mul (by norm_num : (0 : Nat) < 256)]
    omega
  simp only [verify]
  rw [hlen]
  split_ifs with h
  · simpa using harith.1 h
  · constructor
    · intro hx
      exact absurd hx (by simp)
    · intro hx
      exact absurd (harith.2 hx) h

/-- C7 (amended).  `verify` raises (`IndexError`, modelled as `none`) exactly
when the signature is too short to split into `len(keys) + 1` blocks of 256
bytes, i.e. when its length is at most `256 * len(keys)`; any longer
signature — including lengths that are not a multiple of 256, whose final
short block is absorbed by the slicing — yields a boolean verdict and never
a parse error. -/
theorem verify_none_iff (sha : Bytes → Bytes) (sig msg : Bytes)
    (keys : List RsaKey) :
    verify sha sig msg keys = none ↔ sig.length ≤ 256 * keys.length :=
  verify_none_char sha sig msg keys

set_option maxRecDepth 4000 in
/-- C7 (counterexample).  A signature of 769 bytes — not a multiple of the
256-byte modulus width — does not cause a parse error: for a 2-key ring the
slicing yields four blocks (the last only one byte), verification runs and
here even returns `True`.  The claim says such lengths raise a ParseError. -/
theorem verify_non_multiple_no_error :
    verify sha_zero (List.replicate 769 0) [5] [key_three, key_three] = some true := by
  decide

/-- C6 (amended).  `commit(msg, r)` fails with `ValueError` exactly when the
nonce is longer than 32 bytes; every nonce of length at most 32 — including
nonces shorter than 32 bytes, which the claim says are rejected — is
accepted, returning the digest of `msg ‖ r`. -/
theorem commit_nonce_check (sha : Bytes → Bytes) (msg r : Bytes) :
    commit sha msg r = if 32 < r.length then Except.error CommitError.random_too_big
      else Except.ok (sha (msg ++ r)) := rfl

/-- C6 (counterexample).  A 31-byte nonce is shorter than the mandated 32
bytes, yet `commit` accepts it and returns a digest instead of failing with
an invalid-argument error as the claim requires. -/
theorem commit_short_nonce_accepted :
    commit sha_zero [7] (List.replicate 31 0) = Except.ok (List.replicate 32 0) := rfl

/-- C2.  Chunked-encryption behaviour.  For the empty message, `encrypt`
raises `TypeError` (Python's `reduce` over the empty block list), modelled
as `none` — the round-trip contract fails there.  For every non-empty
message, provided the underlying OAEP block cipher inverts its own output
(the documented behaviour of PKCS1-OAEP for blocks of at most 214 bytes,
each ciphertext block being 256 bytes), `decrypt(encrypt(m, pub), priv)`
returns `m`. -/
theorem encrypt_decrypt_roundtrip (be bd : Bytes → Bytes) (m : Bytes)
    (hblock : ∀ b : Bytes, b ≠ [] → b.length ≤ 214 →
      (be b).length = 256 ∧ bd (be b) = b)
    (hm : m ≠ []) :
    encrypt be [] = none ∧ (encrypt be m).bind (decrypt bd) = some m := by
  refine ⟨rfl, ?_⟩
  have hbmem : ∀ b ∈ chunks 214 m, b.length ≤ 214 ∧ b ≠ [] :=
    fun b hb => chunks_mem (by norm_num) hb
  have henc : encrypt be m = some ((chunks 214 m).map be).flatten := by
    unfold encrypt
    rw [if_neg hm]
  have hcts_len : ∀ b ∈ (chunks 214 m).map be, b.length = 256 := by
    intro b hb
    obtain ⟨x, hx, rfl⟩ := List.mem_map.1 hb
    exact (hblock x (hbmem x hx).2 (hbmem x hx).1).1
  have hct_ne : ((chunks 214 m).map be).flatten ≠ [] := by
    have hcl : ((chunks 214 m).map be).flatten.length =
        256 * ((chunks 214 m).map be).length :=
      flatten_length_uniform 256 _ hcts_len
    intro h
    rw [h] at hcl
    have hne := chunks_ne_nil (by norm_num : (0:Nat) < 214) hm
    have : 0 < (chunks 214 m).length := List.length_pos.2 hne
    simp only [List.length_nil, List.length_map] at hcl
    omega
  rw [henc]
  show decrypt bd ((chunks 214 m).map be).flatten = some m
  unfold decrypt
  rw [if_neg hct_ne, chunks_flatten 256 (by norm_num) _ hcts_len, List.map_map]
  have hid : ∀ b ∈ chunks 214 m, (bd ∘ be) b = id b := by
    intro b hb
    simpa using (hblock b (hbmem b hb).2 (hbmem b hb).1).2
  rw [List.map_congr_left hid, List.map_id, chunks_join 214 (by norm_num)]

/-- A concrete invertible stand-in block cipher: prefix the block with its
length and pad to 256 bytes. -/
def be_w : Bytes → Bytes := fun b => b.length :: (b ++ List.replicate (255 - b.length) 0)

/-- The decryption matching `be_w`. -/
def bd_w : Bytes → Bytes := fun blk => (blk.drop 1).take (blk.headD 0)

theorem encrypt_decrypt_roundtrip_witness :
    encrypt be_w [] = none ∧ (encrypt be_w [5]).bind (decrypt bd_w) = some [5] :=
  encrypt_decrypt_roundtrip be_w bd_w [5]
    (by
      intro b hne hlen
      constructor
      · simp only [be_w, List.length_cons, List.length_append, List.length_replicate]
        omega
      · simp only [be_w, bd_w, List.headD_cons, List.drop_succ_cons, List.drop_zero]
        exact List.take_left b _)
    (by simp)

/-! Characterisation of the tally loop of `get_winning_commitment`. -/

/-- Recursive form of the tally loop: running maximum and winning commitment. -/
def tally_aux (sha : Bytes → Bytes) : List Entry → Nat → Option Bytes → Nat × Option Bytes
  | [], m, w => (m, w)
  | e :: t, m, w =>
    if entry_ok sha e ∧ m < e.bid then tally_aux sha t e.bid (some e.com)
    else tally_aux sha t m w

/-- The running maximum of the tally loop. -/
def max_valid_bid (sha : Bytes → Bytes) : List Entry → Nat → Nat
  | [], m => m
  | e :: t, m => max_valid_bid sha t (if entry_ok sha e ∧ m < e.bid then e.bid else m)

theorem tally_aux_cons (sha : Bytes → Bytes) (e : Entry) (t : List Entry)
    (m : Nat) (w : Option Bytes) :
    tally_aux sha (e :: t) m w =
      if entry_ok sha e ∧ m < e.bid then tally_aux sha t e.bid (some e.com)
      else tally_aux sha t m w := rfl

theorem max_valid_bid_cons (sha : Bytes → Bytes) (e : Entry) (t : List Entry)
    (m : Nat) :
    max_valid_bid sha (e :: t) m =
      max_valid_bid sha t (if entry_ok sha e ∧ m < e.bid then e.bid else m) := rfl

theorem foldl_tally_eq (sha : Bytes → Bytes) :
    ∀ (l : List (String × Entry)) (acc : Nat × Option Bytes),
      l.foldl (fun acc p =>
        if entry_ok sha p.2 then
          (if acc.1 < p.2.bid then (p.2.bid, some p.2.com) else acc)
        else acc) acc = tally_aux sha (l.map Prod.snd) acc.1 acc.2 := by
  intro l
  induction l with
  | nil => intro acc; rfl
  | cons p t ih =>
    intro acc
    simp only [List.foldl_cons, List.map_cons]
    rw [tally_aux_cons]
    by_cases hok : entry_ok sha p.2
    · by_cases hlt : acc.1 < p.2.bid
      · rw [if_pos hok, if_pos hlt, if_pos ⟨hok, hlt⟩, ih]
      · rw [if_pos hok, if_neg hlt, if_neg (by tauto), ih]
    · rw [if_neg hok, if_neg (by tauto), ih]

theorem le_max_valid_bid (sha : Bytes → Bytes) :
    ∀ (l : List Entry) (m : Nat), m ≤ max_valid_bid sha l m := by
  intro l
  induction l with
  | nil => intro m; exact Nat.le_refl m
  | cons e t ih =>
    intro m
    rw [max_valid_bid_cons]
    split_ifs with h
    · exact Nat.le_trans (Nat.le_of_lt h.2) (ih e.bid)
    · exact ih m

theorem tally_aux_eq_of_max (sha : Bytes → Bytes) :
    ∀ (l : List Entry) (m : Nat) (w : Option Bytes),
      max_valid_bid sha l m = m → tally_aux sha l m w = (m, w) := by
  intro l
  induction l with
  | nil => intro m w _; rfl
  | cons e t ih =>
    intro m w h
    rw [max_valid_bid_cons] at h
    rw [tally_aux_cons]
    split_ifs at h ⊢ with hc
    · exfalso
      have h1 : e.bid ≤ max_valid_bid sha t e.bid := le_max_valid_bid sha t e.bid
      have h2 := hc.2
      omega
    · exact ih m w h

theorem tally_aux_find (sha : Bytes → Bytes) :
    ∀ (l : List Entry) (m : Nat) (w : Option Bytes),
      m < max_valid_bid sha l m →
      ∃ e, l.find? (fun e => entry_ok sha e && (e.bid == max_valid_bid sha l m)) = some e ∧
        tally_aux sha l m w = (max_valid_bid sha l m, some e.com) := by
  intro l
  induction l with
  | nil => intro m w h; exact absurd h (Nat.lt_irrefl m)
  | cons e t ih =>
    intro m w h
    by_cases hc : entry_ok sha e ∧ m < e.bid
    · have hM : max_valid_bid sha (e :: t) m = max_valid_bid sha t e.bid := by
        rw [max_valid_bid_cons, if_pos hc]
      have hT : tally_aux sha (e :: t) m w = tally_aux sha t e.bid (some e.com) := by
        rw [tally_aux_cons, if_pos hc]
      rcases Nat.lt_or_ge e.bid (max_valid_bid sha t e.bid) with hlt | hge
      · obtain ⟨x, hf, ht⟩ := ih e.bid (some e.com) hlt
        have hb : (entry_ok sha e && (e.bid == max_valid_bid sha (e :: t) m)) = false := by
          rw [hM]
          simp only [Bool.and_eq_false_iff, beq_eq_false_iff_ne]
          right
          omega
        refine ⟨x, ?_, ?_⟩
        · rw [List.find?_cons, hb, hM]
          exact hf
        · rw [hT, hM, ht]
      · have heq : max_valid_bid sha t e.bid = e.bid :=
          Nat.le_antisymm hge (le_max_valid_bid sha t e.bid)
        have hb : (entry_ok sha e && (e.bid == max_valid_bid sha (e :: t) m)) = true := by
          rw [hM, heq]
          simp [hc.1]
        refine ⟨e, ?_, ?_⟩
        · rw [List.find?_cons, hb]
        · rw [hT, hM, heq, tally_aux_eq_of_max sha t e.bid (some e.com) heq]
    · have hM : max_valid_bid sha (e :: t) m = max_valid_bid sha t m := by
        rw [max_valid_bid_cons, if_neg hc]
      have hT : tally_aux sha (e :: t) m w = tally_aux sha t m w := by
        rw [tally_aux_cons, if_neg hc]
      rw [hM] at h
      obtain ⟨x, hf, ht⟩ := ih m w h
      have hb : (entry_ok sha e && (e.bid == max_valid_bid sha (e :: t) m)) = false := by
        rw [hM]
        cases hok : entry_ok sha e with
        | false => simp
        | true =>
          have h1 : ¬ m < e.bid := fun hx => hc ⟨hok, hx⟩
          simp only [Bool.true_and, beq_eq_false_iff_ne]
          omega
      refine ⟨x, ?_, ?_⟩
      · rw [List.find?_cons, hb, hM]
        exact hf
      · rw [hT, hM, ht]

theorem max_valid_bid_zero (sha : Bytes → Bytes) :
    ∀ (l : List Entry), (∀ e ∈ l, entry_ok sha e = false ∨ e.bid = 0) →
      max_valid_bid sha l 0 = 0 := by
  intro l
  induction l with
  | nil => intro _; rfl
  | cons e t ih =>
    intro h
    rw [max_valid_bid_cons, if_neg ?_]
    · exact ih (fun x hx => h x (by simp [hx]))
    · rcases h e (by simp) with hok | hbid
      · simp [hok]
      · simp [hbid]

/-- The tally written through its recursive characterisation. -/
theorem get_winning_commitment_eq (sha : Bytes → Bytes) (st : AuctState) :
    get_winning_commitment sha st =
      { st with winning_com :=
          (tally_aux sha (st.bidders.map Prod.snd) 0 st.winning_com).2 } := by
  unfold get_winning_commitment
  rw [foldl_tally_eq]

/-- C3 (amended).  Over all recorded tally entries, `get_winning_commitment`
discards every entry failing the commitment re-check and records the
commitment of the first entry (in iteration order, which resolves ties)
attaining the greatest bid among the remaining ones — provided that greatest
bid is strictly positive; an entry with bid 0 is never selected since the
running maximum starts at 0 (see `winning_commitment_zero_bid_cex`). -/
theorem winning_commitment_first_max (sha : Bytes → Bytes) (st : AuctState)
    (hpos : 0 < max_valid_bid sha (st.bidders.map Prod.snd) 0) :
    ∃ e, (st.bidders.map Prod.snd).find?
        (fun e => entry_ok sha e &&
          (e.bid == max_valid_bid sha (st.bidders.map Prod.snd) 0)) = some e ∧
      (get_winning_commitment sha st).winning_com = some e.com := by
  obtain ⟨e, hf, ht⟩ :=
    tally_aux_find sha (st.bidders.map Prod.snd) 0 st.winning_com hpos
  refine ⟨e, hf, ?_⟩
  rw [get_winning_commitment_eq]
  show (tally_aux sha (st.bidders.map Prod.snd) 0 st.winning_com).2 = some e.com
  rw [ht]

/-- A digest stand-in that lets hand-built commitments check out: the first
32 bytes of the hashed message. -/
def sha_take : Bytes → Bytes := fun m => (m ++ List.replicate 32 0).take 32

/-- A tally with a single entry of bid 0 that passes the commitment
re-check, and no winning commitment recorded yet. -/
def st_zero : AuctState :=
  ⟨[("a", ⟨0, to_bytes 0 32, List.replicate 32 0⟩)], none, none⟩

/-- C3 (counterexample).  A state whose only tally entry passes the
re-check with bid 0: the claim demands that its commitment be recorded as
winning (it is the entry with the greatest bid among the remaining ones),
but the code leaves `winning_com` untouched (`None`), because `max_bid`
starts at 0 and only a strictly greater bid updates it. -/
theorem winning_commitment_zero_bid_cex :
    entry_ok sha_take ⟨0, to_bytes 0 32, List.replicate 32 0⟩ = true ∧
    (get_winning_commitment sha_take st_zero).winning_com ≠ some (to_bytes 0 32) := by
  decide

/-- A three-bidder tally with bids 3, 9 and 5, all passing the re-check. -/
def st_three : AuctState :=
  ⟨[("a", ⟨3, to_bytes 3 32, List.replicate 32 0⟩),
    ("b", ⟨9, to_bytes 9 32, List.replicate 32 0⟩),
    ("c", ⟨5, to_bytes 5 32, List.replicate 32 0⟩)], none, none⟩

theorem winning_commitment_first_max_witness :
    0 < max_valid_bid sha_take (st_three.bidders.map Prod.snd) 0 ∧
    ∃ e, (st_three.bidders.map Prod.snd).find?
        (fun e => entry_ok sha_take e &&
          (e.bid == max_valid_bid sha_take (st_three.bidders.map Prod.snd) 0)) = some e ∧
      (get_winning_commitment sha_take st_three).winning_com = some e.com :=
  ⟨by decide, winning_commitment_first_max sha_take st_three (by decide)⟩

theorem parse_tau_fst_ne_nil {tau C d : Bytes} (h : parse_tau tau = some (C, d)) :
    C ≠ [] := by
  unfold parse_tau at h
  split_ifs at h with hlen
  obtain ⟨rfl, rfl⟩ : tau.take (tau.length - 32) = C ∧ tau.drop (tau.length - 32) = d := by
    injection h with h2
    injection h2 with h3 h4
    exact ⟨h3, h4⟩
  intro hC
  have := congrArg List.length hC
  simp only [List.length_take, List.length_nil] at this
  omega

theorem decrypt_of_ne_nil (bd : Bytes → Bytes) {C : Bytes} (h : C ≠ []) :
    decrypt bd C = some ((chunks 256 C).map bd).flatten := by
  unfold decrypt
  rw [if_neg h]

/-- C10.  The tally starts the running maximum at 0 and replaces it only on
a strictly greater bid, so when every recorded entry fails the re-check or
has bid 0 (in particular when the tally is empty), `winning_com` is left
unchanged — still `None` when never previously set — and `identity_opening`
then rejects every input, since the commitment recovered from the token can
never equal `None`. -/
theorem tally_zero_keeps_none_and_identity_rejects
    (sha bd : Bytes → Bytes) (ik : Bytes → RsaKey) (st : AuctState)
    (sig tau_2 : Bytes)
    (hz : ∀ e ∈ st.bidders.map Prod.snd, entry_ok sha e = false ∨ e.bid = 0)
    (hw : st.winning_com = none) :
    (get_winning_commitment sha st).winning_com = none ∧
    identity_opening sha bd ik st sig tau_2 = some (false, st) := by
  constructor
  · rw [get_winning_commitment_eq]
    show (tally_aux sha (st.bidders.map Prod.snd) 0 st.winning_com).2 = none
    rw [tally_aux_eq_of_max sha _ 0 st.winning_com
      (max_valid_bid_zero sha _ hz)]
    exact hw
  · rcases hps : parse_sig sig with _ | ⟨sigma, c1, c2⟩
    · simp [identity_opening, hps]
    · rcases hpt : parse_tau tau_2 with _ | ⟨C2, d2⟩
      · simp [identity_opening, hps, hpt]
      · by_cases hcv : commit_verify sha C2 d2 c2
        · have hd := decrypt_of_ne_nil bd (parse_tau_fst_ne_nil hpt)
          rcases hpm : parse_m2 ik (((chunks 256 C2).map bd).flatten)
            with _ | ⟨c, pw, pa, sg, Sg, delta⟩
          · simp [identity_opening, hps, hpt, hcv, hd, hpm]
          · simp [identity_opening, hps, hpt, hcv, hd, hpm, hw]
        · simp [identity_opening, hps, hpt, hcv]

theorem tally_zero_keeps_none_and_identity_rejects_witness :
    (get_winning_commitment sha_take st_zero).winning_com = none ∧
    identity_opening sha_take bd_w (fun _ => key_three) st_zero [] [] =
      some (false, st_zero) :=
  tally_zero_keeps_none_and_identity_rejects sha_take bd_w (fun _ => key_three)
    st_zero [] [] (by decide) rfl

/-- The conjunction of the checks `bid_opening` performs, in source order:
`sigma` verifies on `c` over the ring, `commit(C1, d1) == c1`, the decrypted
`c~` equals `c` and `sigma~` equals `sigma`, `Sigma` verifies on `c ‖ sigma`
over the ring, and `commit(bid, d) == c`. -/
def bid_opening_ok (sha : Bytes → Bytes) (c : Bytes) (ring : List RsaKey)
    (sigma c1 C1 d1 c_tilde sigma_tilde Sig bid d : Bytes) : Bool :=
  (verify sha sigma c ring == some true) && commit_verify sha C1 d1 c1 &&
  (c_tilde == c) && (sigma_tilde == sigma) &&
  (verify sha Sig (c ++ sigma) ring == some true) && commit_verify sha bid d c

/-- Characterisation of `bid_opening` on inputs whose fields parse and whose
two ring-signature fields are long enough for the ring: the verdict is the
conjunction of the checks, and the tally is extended exactly on acceptance. -/
theorem bid_opening_spec (sha bd : Bytes → Bytes) (st : AuctState)
    (address : String) (ring : List RsaKey) (c sig tau_1 : Bytes)
    (sigma c1 c2 C1 d1 m1 c_tilde sigma_tilde Sig bid d : Bytes)
    (hps : parse_sig sig = some (sigma, c1, c2))
    (hpt : parse_tau tau_1 = some (C1, d1))
    (hd : decrypt bd C1 = some m1)
    (hpm : parse_m1 m1 = some (c_tilde, sigma_tilde, Sig, bid, d))
    (hv1 : verify sha sigma c ring ≠ none)
    (hv2 : verify sha Sig (c ++ sigma) ring ≠ none) :
    bid_opening sha bd st address ring c sig tau_1 =
      some (bid_opening_ok sha c ring sigma c1 C1 d1 c_tilde sigma_tilde Sig bid d,
        if bid_opening_ok sha c ring sigma c1 C1 d1 c_tilde sigma_tilde Sig bid d then
          { st with bidders := insert_bidder st.bidders address ⟨from_bytes bid, c, d⟩ }
        else st) := by
  rcases hb1 : verify sha sigma c ring with _ | b1
  · exact absurd hb1 hv1
  · cases b1 with
    | false =>
      simp [bid_opening, bid_opening_ok, hps, hb1]
    | true =>
      by_cases hc1 : commit_verify sha C1 d1 c1
      · by_cases hcs : c_tilde = c ∧ sigma_tilde = sigma
        · rcases hb2 : verify sha Sig (c ++ sigma) ring with _ | b2
          · exact absurd hb2 hv2
          · cases b2 with
            | false =>
              simp [bid_opening, bid_opening_ok, hps, hb1, hpt, hc1, hd, hpm, hcs, hb2]
            | true =>
              by_cases hcb : commit_verify sha bid d c
              · simp [bid_opening, bid_opening_ok, hps, hb1, hpt, hc1, hd, hpm, hcs,
                  hb2, hcb]
              · simp [bid_opening, bid_opening_ok, hps, hb1, hpt, hc1, hd, hpm, hcs,
                  hb2, hcb]
        · simp only [not_and] at hcs
          by_cases hct : c_tilde = c
          · simp [bid_opening, bid_opening_ok, hps, hb1, hpt, hc1, hd, hpm, hct,
              hcs hct]
          · simp [bid_opening, bid_opening_ok, hps, hb1, hpt, hc1, hd, hpm, hct]
      · simp [bid_opening, bid_opening_ok, hps, hb1, hpt, hc1]

set_option maxRecDepth 8000 in
/-- C4 (counterexample).  An input whose `sigma` field is only 256 bytes
against a 2-key ring (so it splits into fewer than 3 blocks) makes
`verify` — and hence `bid_opening` — raise `IndexError` (modelled `none`):
the method neither returns Rejected nor leaves a verdict, contradicting the
claim that any failing input returns Rejected. -/
theorem bid_opening_raises_cex :
    bid_opening sha_zero bd_w ⟨[], none, none⟩ "a" [key_three, key_three]
      (List.replicate 32 0) (List.replicate 320 0) (List.replicate 64 0) = none := by
  decide

/-- Block decryption stand-in for the accepting `bid_opening` run: block
tagged 1 carries the bid commitment, block tagged 2 carries the encoded bid
and decommitment, all other blocks decrypt to zero filler. -/
def bd_c4 : Bytes → Bytes := fun b =>
  if b.headD 0 == 1 then to_bytes 9 32 ++ List.replicate 172 0
  else if b.headD 0 == 2 then List.replicate 140 0 ++ to_bytes 9 32 ++ List.replicate 32 0
  else List.replicate 204 0

/-- The 2-key ring used by the concrete auctioneer runs. -/
def ring_w : List RsaKey := [key_three, key_three]

/-- A 256-byte ciphertext block tagged 1. -/
def blk_one : Bytes := 1 :: List.replicate 255 0

/-- A 256-byte ciphertext block of zeroes. -/
def blk_zero : Bytes := 0 :: List.replicate 255 0

/-- A 256-byte ciphertext block tagged 2. -/
def blk_two : Bytes := 2 :: List.replicate 255 0

/-- The plaintext `bd_c4` yields for the block tagged 1. -/
def chunk_one : Bytes := to_bytes 9 32 ++ List.replicate 172 0

/-- The plaintext `bd_c4` yields for the block tagged 2. -/
def chunk_two : Bytes := List.replicate 140 0 ++ (to_bytes 9 32 ++ List.replicate 32 0)

/-- The plaintext `bd_c4` yields for a zero block. -/
def filler : Bytes := List.replicate 204 0

/-- Ciphertext of 8 blocks whose decryption under `bd_c4` is `m1_w`. -/
def C1_w : Bytes :=
  blk_one ++ (blk_zero ++ (blk_zero ++ (blk_zero ++ (blk_zero ++ (blk_zero ++
    (blk_zero ++ blk_two))))))

/-- The decrypted opening material `c ‖ sigma ‖ Sigma ‖ bid ‖ d` for a bid
of 9 with all-zero signatures and nonce. -/
def m1_w : Bytes :=
  to_bytes 9 32 ++ (List.replicate 768 0 ++ (List.replicate 768 0 ++
    (to_bytes 9 32 ++ List.replicate 32 0)))

/-- The published signature bundle `sigma ‖ c1 ‖ c2` matching `C1_w`. -/
def sig_w : Bytes :=
  List.replicate 768 0 ++ ((1 :: List.replicate 31 0) ++ List.replicate 32 0)

/-- The opening token `tau_1 = C1 ‖ d1`. -/
def tau_w : Bytes := C1_w ++ List.replicate 32 0

/-- Merging adjacent replicate segments in a right-nested concatenation. -/
theorem replicate_merge {α : Type} (a : α) (m n : Nat) (l : List α) :
    List.replicate m a ++ (List.replicate n a ++ l) = List.replicate (m + n) a ++ l := by
  rw [← List.append_assoc, ← List.replicate_add]

theorem parse_sig_sig_w :
    parse_sig sig_w = some (List.replicate 768 0, 1 :: List.replicate 31 0,
      List.replicate 32 0) := by
  have hlen : sig_w.length = 832 := by
    simp only [sig_w, List.length_append, List.length_cons, List.length_replicate]
  unfold parse_sig
  rw [hlen]
  norm_num
  rw [show sig_w = List.replicate 768 0 ++
    ((1 :: List.replicate 31 0) ++ List.replicate 32 0) from rfl]
  refine ⟨?_, ?_, ?_⟩
  · exact List.take_left' (by simp only [List.length_replicate])
  · rw [List.drop_left' (by simp only [List.length_replicate] :
      (List.replicate 768 (0:Nat)).length = 768)]
    exact List.take_left' (by simp only [List.length_cons, List.length_replicate])
  · rw [show (800 : Nat) = 768 + 32 from rfl, ← List.drop_drop,
      List.drop_left' (by simp only [List.length_replicate] :
        (List.replicate 768 (0:Nat)).length = 768),
      List.drop_left' (by simp only [List.length_cons, List.length_replicate] :
        ((1:Nat) :: List.replicate 31 0).length = 32)]

theorem parse_tau_tau_w :
    parse_tau tau_w = some (C1_w, List.replicate 32 0) := by
  have hC1len : C1_w.length = 2048 := by
    simp only [C1_w, blk_one, blk_zero, blk_two, List.length_append,
      List.length_cons, List.length_replicate]
  have hlen : tau_w.length = 2080 := by
    simp only [tau_w, List.length_append, List.length_replicate, hC1len]
  unfold parse_tau
  rw [hlen]
  norm_num
  exact ⟨List.take_left' (by rw [hC1len]), List.drop_left' (by rw [hC1len])⟩

theorem decrypt_C1_w : decrypt bd_c4 C1_w = some m1_w := by
  have hC1len : C1_w.length = 2048 := by
    simp only [C1_w, blk_one, blk_zero, blk_two, List.length_append,
      List.length_cons, List.length_replicate]
  have hne : C1_w ≠ [] := by
    intro h
    rw [h] at hC1len
    simp at hC1len
  rw [decrypt_of_ne_nil bd_c4 hne]
  have hflat : C1_w = List.flatten
      [blk_one, blk_zero, blk_zero, blk_zero, blk_zero, blk_zero, blk_zero, blk_two] := by
    simp only [List.flatten_cons, List.flatten_nil, List.append_nil, C1_w]
  have hchunks : chunks 256 C1_w =
      [blk_one, blk_zero, blk_zero, blk_zero, blk_zero, blk_zero, blk_zero, blk_two] := by
    rw [hflat]
    refine chunks_flatten 256 (by norm_num) _ ?_
    intro b hb
    simp only [List.mem_cons, List.not_mem_nil, or_false] at hb
    rcases hb with rfl | rfl | rfl | rfl | rfl | rfl | rfl | rfl <;>
      simp only [blk_one, blk_zero, blk_two, List.length_cons, List.length_replicate]
  rw [hchunks]
  have h1 : bd_c4 blk_one = chunk_one := by
    simp only [bd_c4, blk_one, chunk_one, List.headD_cons]
    rw [show ((1 : Nat) == 1) = true from rfl]
    simp only [eq_self_iff_true, if_true]
  have h0 : bd_c4 blk_zero = filler := by
    simp only [bd_c4, blk_zero, filler, List.headD_cons,
      show ((0 : Nat) == 1) = false from rfl, show ((0 : Nat) == 2) = false from rfl,
      Bool.false_eq_true, if_false]
  have h2 : bd_c4 blk_two = chunk_two := by
    simp only [bd_c4, blk_two, chunk_two, List.headD_cons,
      show ((2 : Nat) == 1) = false from rfl, show ((2 : Nat) == 2) = true from rfl,
      Bool.false_eq_true, if_false, eq_self_iff_true, if_true]
    rw [List.append_assoc]
  simp only [List.map_cons, List.map_nil, h1, h0, h2, List.flatten_cons,
    List.flatten_nil, List.append_nil]
  refine congrArg some ?_
  simp only [chunk_one, chunk_two, filler, m1_w, List.append_assoc,
    replicate_merge]

theorem parse_m1_m1_w :
    parse_m1 m1_w = some (to_bytes 9 32, List.replicate 768 0,
      List.replicate 768 0, to_bytes 9 32, List.replicate 32 0) := by
  have hlen : m1_w.length = 1632 := by
    simp only [m1_w, List.length_append, List.length_replicate, to_bytes_length]
  unfold parse_m1
  rw [hlen]
  norm_num
  have hrest : m1_w.drop 32 = List.replicate 768 0 ++ (List.replicate 768 0 ++
      (to_bytes 9 32 ++ List.replicate 32 0)) :=
    List.drop_left' (to_bytes_length 9 32)
  have e1 : m1_w.drop 800 = List.replicate 768 0 ++
      (to_bytes 9 32 ++ List.replicate 32 0) := by
    rw [show (800 : Nat) = 32 + 768 from rfl, ← List.drop_drop, hrest]
    exact List.drop_left' (by simp only [List.length_replicate])
  have e2 : m1_w.drop 1568 = to_bytes 9 32 ++ List.replicate 32 0 := by
    rw [show (1568 : Nat) = 800 + 768 from rfl, ← List.drop_drop, e1]
    exact List.drop_left' (by simp only [List.length_replicate])
  have e3 : m1_w.drop 1600 = List.replicate 32 0 := by
    rw [show (1600 : Nat) = 1568 + 32 from rfl, ← List.drop_drop, e2]
    exact List.drop_left' (to_bytes_length 9 32)
  refine ⟨?_, ?_, ?_, ?_, ?_⟩
  · exact List.take_left' (to_bytes_length 9 32)
  · rw [hrest]
    exact List.take_left' (by simp only [List.length_replicate])
  · rw [e1]
    exact List.take_left' (by simp only [List.length_replicate])
  · rw [e2]
    exact List.take_left' (to_bytes_length 9 32)
  · exact e3

theorem verify_sigma_w_not_none :
    verify sha_take (List.replicate 768 0) (to_bytes 9 32) ring_w ≠ none := by
  intro h
  rw [verify_none_char] at h
  simp only [List.length_replicate, ring_w, List.length_cons, List.length_nil] at h
  omega

theorem verify_Sigma_w_not_none :
    verify sha_take (List.replicate 768 0)
      (to_bytes 9 32 ++ List.replicate 768 0) ring_w ≠ none := by
  intro h
  rw [verify_none_char] at h
  simp only [List.length_replicate, ring_w, List.length_cons, List.length_nil] at h
  omega

/-- C4 (amended).  For every input whose fields parse and whose two ring
signature fields are long enough for the ring (so that the verifier does not
raise `IndexError`, cf. `bid_opening_raises_cex`), `bid_opening` returns
Accepted and records `{bid, commitment, decommitment}` for the address
exactly when all checks pass, and returns Rejected with the tally map left
completely unchanged when any single check fails. -/
theorem bid_opening_atomic (sha bd : Bytes → Bytes) (st : AuctState)
    (address : String) (ring : List RsaKey) (c sig tau_1 : Bytes)
    (sigma c1 c2 C1 d1 m1 c_tilde sigma_tilde Sig bid d : Bytes)
    (hps : parse_sig sig = some (sigma, c1, c2))
    (hpt : parse_tau tau_1 = some (C1, d1))
    (hd : decrypt bd C1 = some m1)
    (hpm : parse_m1 m1 = some (c_tilde, sigma_tilde, Sig, bid, d))
    (hv1 : verify sha sigma c ring ≠ none)
    (hv2 : verify sha Sig (c ++ sigma) ring ≠ none) :
    bid_opening sha bd st address ring c sig tau_1 =
      some (bid_opening_ok sha c ring sigma c1 C1 d1 c_tilde sigma_tilde Sig bid d,
        if bid_opening_ok sha c ring sigma c1 C1 d1 c_tilde sigma_tilde Sig bid d then
          { st with bidders := insert_bidder st.bidders address ⟨from_bytes bid, c, d⟩ }
        else st) :=
  bid_opening_spec sha bd st address ring c sig tau_1 sigma c1 c2 C1 d1 m1
    c_tilde sigma_tilde Sig bid d hps hpt hd hpm hv1 hv2

theorem bid_opening_atomic_witness :
    bid_opening sha_take bd_c4 ⟨[], none, none⟩ "b" ring_w (to_bytes 9 32) sig_w tau_w =
      some (bid_opening_ok sha_take (to_bytes 9 32) ring_w (List.replicate 768 0)
          (1 :: List.replicate 31 0) C1_w (List.replicate 32 0) (to_bytes 9 32)
          (List.replicate 768 0) (List.replicate 768 0) (to_bytes 9 32)
          (List.replicate 32 0),
        if bid_opening_ok sha_take (to_bytes 9 32) ring_w (List.replicate 768 0)
            (1 :: List.replicate 31 0) C1_w (List.replicate 32 0) (to_bytes 9 32)
            (List.replicate 768 0) (List.replicate 768 0) (to_bytes 9 32)
            (List.replicate 32 0) then
          { (⟨[], none, none⟩ : AuctState) with
            bidders := insert_bidder ([] : List (String × Entry)) "b"
              ⟨from_bytes (to_bytes 9 32), to_bytes 9 32, List.replicate 32 0⟩ }
        else ⟨[], none, none⟩) :=
  bid_opening_atomic sha_take bd_c4 ⟨[], none, none⟩ "b" ring_w (to_bytes 9 32)
    sig_w tau_w (List.replicate 768 0) (1 :: List.replicate 31 0)
    (List.replicate 32 0) C1_w (List.replicate 32 0) m1_w (to_bytes 9 32)
    (List.replicate 768 0) (List.replicate 768 0) (to_bytes 9 32)
    (List.replicate 32 0) parse_sig_sig_w parse_tau_tau_w decrypt_C1_w
    parse_m1_m1_w verify_sigma_w_not_none verify_Sigma_w_not_none

/-- The conjunction of the checks `identity_opening` performs, in source
order: `commit(C2, d2) == c2`, the recovered commitment equals the stored
`winning_com`, and `delta` verifies as a 2-member-ring signature over
`[pub_bidder, pub_auctioneer]` on `c ‖ sig~ ‖ Sigma`. -/
def identity_ok (sha : Bytes → Bytes) (st : AuctState)
    (c2 C2 d2 c sg Sg delta : Bytes) (pw pa : RsaKey) : Bool :=
  commit_verify sha C2 d2 c2 && decide (some c = st.winning_com) &&
  (verify sha delta (c ++ sg ++ Sg) [pw, pa] == some true)

theorem parse_m2_delta_length {ik : Bytes → RsaKey} {m2 : Bytes}
    {c : Bytes} {pw pa : RsaKey} {sg Sg delta : Bytes}
    (h : parse_m2 ik m2 = some (c, pw, pa, sg, Sg, delta)) :
    delta.length = 768 := by
  unfold parse_m2 at h
  split_ifs at h with hg
  simp only [Option.some.injEq, Prod.mk.injEq] at h
  obtain ⟨-, -, -, -, -, hdelta⟩ := h
  rw [← hdelta]
  simp only [not_or, not_lt] at hg
  simp only [List.length_drop]
  unfold KEY_LEN at hg ⊢
  omega

/-- C5.  `identity_opening` parses `sig` into `(sigma, c1, c2)` and `tau_2`
into `(C2, d2)`, decrypts `C2` and parses the result into
`(c, pub_bidder, pub_auctioneer, sig~, Sigma, delta)`; it returns Rejected
unless `commit(C2, d2) == c2`, unless `c` equals the stored
`winning_commitment`, and unless `delta` verifies as a 2-member-ring
signature over `[pub_bidder, pub_auctioneer]`; exactly on success it
records `winning_identity = pub_bidder` and returns Accepted.  (The
spec-fixed field widths make `delta` exactly 768 bytes, so the 2-key
verification never raises.) -/
theorem identity_opening_characterized (sha bd : Bytes → Bytes)
    (ik : Bytes → RsaKey) (st : AuctState) (sig tau_2 : Bytes)
    (sigma c1 c2 C2 d2 m2 c : Bytes) (pw pa : RsaKey) (sg Sg delta : Bytes)
    (hps : parse_sig sig = some (sigma, c1, c2))
    (hpt : parse_tau tau_2 = some (C2, d2))
    (hd : decrypt bd C2 = some m2)
    (hpm : parse_m2 ik m2 = some (c, pw, pa, sg, Sg, delta)) :
    identity_opening sha bd ik st sig tau_2 =
      some (identity_ok sha st c2 C2 d2 c sg Sg delta pw pa,
        if identity_ok sha st c2 C2 d2 c sg Sg delta pw pa then
          { st with winning_bidder := some pw }
        else st) := by
  have hvs : verify sha delta (c ++ sg ++ Sg) [pw, pa] ≠ none := by
    intro hv
    rw [verify_none_char] at hv
    rw [parse_m2_delta_length hpm] at hv
    simp at hv
  by_cases hcv : commit_verify sha C2 d2 c2
  · by_cases hwc : some c = st.winning_com
    · rcases hb : verify sha delta (c ++ sg ++ Sg) [pw, pa] with _ | b
      · exact absurd hb hvs
      · have hb2 : verify sha delta (c ++ (sg ++ Sg)) [pw, pa] = some b := by
          rw [← List.append_assoc]
          exact hb
        cases b with
        | false =>
          simp [identity_opening, identity_ok, hps, hpt, hcv, hd, hpm, hwc, hb, hb2]
        | true =>
          simp [identity_opening, identity_ok, hps, hpt, hcv, hd, hpm, hwc, hb, hb2]
    · simp [identity_opening, identity_ok, hps, hpt, hcv, hd, hpm, hwc]
  · simp [identity_opening, identity_ok, hps, hpt, hcv, hd, hpm]

/-- Constant block decryption used for the identity-opening witness. -/
def bd_c5 : Bytes → Bytes := fun _ => List.replicate 1700 0

theorem parse_tau_c5 :
    parse_tau (blk_zero ++ List.replicate 32 0) = some (blk_zero, List.replicate 32 0) := by
  have hlen : (blk_zero ++ List.replicate 32 0).length = 288 := by
    simp only [blk_zero, List.length_append, List.length_cons, List.length_replicate]
  unfold parse_tau
  rw [hlen]
  norm_num
  exact ⟨List.take_left' (by simp only [blk_zero, List.length_cons, List.length_replicate]),
    List.drop_left' (by simp only [blk_zero, List.length_cons, List.length_replicate])⟩

theorem decrypt_c5 : decrypt bd_c5 blk_zero = some (List.replicate 1700 0) := by
  have hne : blk_zero ≠ [] := by
    show (0 :: List.replicate 255 0 : Bytes) ≠ []
    exact List.cons_ne_nil _ _
  rw [decrypt_of_ne_nil bd_c5 hne]
  have hchunks : chunks 256 blk_zero = [blk_zero] := by
    have h := chunks_flatten 256 (by norm_num) [blk_zero] (by
      intro b hb
      simp only [List.mem_cons, List.not_mem_nil, or_false] at hb
      subst hb
      simp only [blk_zero, List.length_cons, List.length_replicate])
    simpa only [List.flatten_cons, List.flatten_nil, List.append_nil] using h
  rw [hchunks]
  simp only [List.map_cons, List.map_nil, List.flatten_cons, List.flatten_nil,
    List.append_nil, bd_c5]

theorem parse_m2_c5 (ik : Bytes → RsaKey) :
    parse_m2 ik (List.replicate 1700 0) =
      some (List.replicate 32 0, ik (List.replicate 450 0), ik (List.replicate 450 0),
        [], [], List.replicate 768 0) := by
  unfold parse_m2 KEY_LEN
  rw [show (List.replicate 1700 (0:Nat)).length = 1700 from by
    simp only [List.length_replicate]]
  norm_num

theorem identity_opening_characterized_witness :
    identity_opening sha_take bd_c5 (fun _ => key_three) ⟨[], none, none⟩
      (List.replicate 64 0) (blk_zero ++ List.replicate 32 0) =
      some (identity_ok sha_take ⟨[], none, none⟩ (List.replicate 32 0) blk_zero
          (List.replicate 32 0) (List.replicate 32 0) [] []
          (List.replicate 768 0) key_three key_three,
        if identity_ok sha_take ⟨[], none, none⟩ (List.replicate 32 0) blk_zero
            (List.replicate 32 0) (List.replicate 32 0) [] []
            (List.replicate 768 0) key_three key_three then
          { (⟨[], none, none⟩ : AuctState) with winning_bidder := some key_three }
        else ⟨[], none, none⟩) :=
  identity_opening_characterized sha_take bd_c5 (fun _ => key_three)
    ⟨[], none, none⟩ (List.replicate 64 0) (blk_zero ++ List.replicate 32 0)
    [] (List.replicate 32 0) (List.replicate 32 0) blk_zero (List.replicate 32 0)
    (List.replicate 1700 0) (List.replicate 32 0) key_three key_three [] []
    (List.replicate 768 0) (by decide) parse_tau_c5 decrypt_c5
    (parse_m2_c5 (fun _ => key_three))

theorem bid_opening_winning_fields (sha bd : Bytes → Bytes) (st : AuctState)
    (address : String) (ring : List RsaKey) (c sig tau_1 : Bytes)
    (b : Bool) (st1 : AuctState)
    (h : bid_opening sha bd st address ring c sig tau_1 = some (b, st1)) :
    st1.winning_com = st.winning_com ∧ st1.winning_bidder = st.winning_bidder := by
  unfold bid_opening at h
  repeat' split at h
  all_goals try exact Option.noConfusion h
  all_goals
    injection h with h1
  all_goals
    injection h1 with hb hst
  all_goals
    subst hst
  all_goals
    exact ⟨rfl, rfl⟩

theorem identity_opening_keeps (sha bd : Bytes → Bytes) (ik : Bytes → RsaKey)
    (st2 : AuctState) (sig tau_2 : Bytes) (b : Bool) (st3 : AuctState)
    (h : identity_opening sha bd ik st2 sig tau_2 = some (b, st3)) :
    st3.winning_com = st2.winning_com ∧ st3.bidders = st2.bidders := by
  unfold identity_opening at h
  repeat' split at h
  all_goals try exact Option.noConfusion h
  all_goals
    injection h with h1
  all_goals
    injection h1 with hb hst
  all_goals
    subst hst
  all_goals
    exact ⟨rfl, rfl⟩

theorem get_winning_commitment_idem (sha : Bytes → Bytes) (st : AuctState) :
    (get_winning_commitment sha (get_winning_commitment sha st)).winning_com =
      (get_winning_commitment sha st).winning_com := by
  simp only [get_winning_commitment_eq]
  show (tally_aux sha (st.bidders.map Prod.snd) 0
      ((tally_aux sha (st.bidders.map Prod.snd) 0 st.winning_com).2)).2 =
    (tally_aux sha (st.bidders.map Prod.snd) 0 st.winning_com).2
  rcases Nat.eq_zero_or_pos (max_valid_bid sha (st.bidders.map Prod.snd) 0) with hz | hp
  · rw [tally_aux_eq_of_max sha _ 0 _ hz]
  · obtain ⟨e, hf, ht⟩ :=
      tally_aux_find sha (st.bidders.map Prod.snd) 0 st.winning_com hp
    obtain ⟨e2, hf2, ht2⟩ :=
      tally_aux_find sha (st.bidders.map Prod.snd) 0
        ((tally_aux sha (st.bidders.map Prod.snd) 0 st.winning_com).2) hp
    rw [ht2, ht]
    rw [hf] at hf2
    injection hf2 with he
    rw [he]

theorem identity_opening_rerun (sha bd : Bytes → Bytes) (ik : Bytes → RsaKey)
    (st : AuctState) (sig tau : Bytes) (b : Bool) (st1 : AuctState)
    (h : identity_opening sha bd ik st sig tau = some (b, st1)) (hb : b = true) :
    identity_opening sha bd ik st1 sig tau = some (true, st1) := by
  subst hb
  rcases hps : parse_sig sig with _ | ⟨sigma, c1, c2⟩
  · simp [identity_opening, hps] at h
  · rcases hpt : parse_tau tau with _ | ⟨C2, d2⟩
    · simp [identity_opening, hps, hpt] at h
    · by_cases hcv : commit_verify sha C2 d2 c2
      case neg => simp [identity_opening, hps, hpt, hcv] at h
      case pos =>
        have hd := decrypt_of_ne_nil bd (parse_tau_fst_ne_nil hpt)
        rcases hpm : parse_m2 ik (((chunks 256 C2).map bd).flatten)
          with _ | ⟨c, pw, pa, sg, Sg, delta⟩
        · simp [identity_opening, hps, hpt, hcv, hd, hpm] at h
        · by_cases hwc : some c = st.winning_com
          case neg => simp [identity_opening, hps, hpt, hcv, hd, hpm, hwc] at h
          case pos =>
            rcases hv : verify sha delta (c ++ (sg ++ Sg)) [pw, pa] with _ | bv
            · simp [identity_opening, hps, hpt, hcv, hd, hpm, hwc, hv] at h
            · cases bv with
              | false => simp [identity_opening, hps, hpt, hcv, hd, hpm, hwc, hv] at h
              | true =>
                have hcall : identity_opening sha bd ik st sig tau =
                    some (true, { st with winning_bidder := some pw }) := by
                  simp [identity_opening, hps, hpt, hcv, hd, hpm, ← hwc, hv]
                rw [hcall] at h
                injection h with h1
                injection h1 with hb2 hst
                subst hst
                have hwc2 : some c =
                    ({ st with winning_bidder := some pw } : AuctState).winning_com := hwc
                have hcall2 : identity_opening sha bd ik
                    { st with winning_bidder := some pw } sig tau =
                    some (true, { st with winning_bidder := some pw }) := by
                  simp [identity_opening, hps, hpt, hcv, hd, hpm, hv]
                  exact hwc
                exact hcall2

/-- C9 (amended).  The winner fields are stable under the operations that do
not legitimately recompute them: `bid_opening` never changes
`winning_com` or `winning_bidder`; `identity_opening` never changes
`winning_com` or the tally; re-running `get_winning_commitment` on an
unchanged tally leaves `winning_com` unchanged, and `get_winning_commitment`
never changes `winning_bidder`; a successful `identity_opening` re-run with
the same tokens re-records the same winner.  The fields are, however, not
write-once in the code: an accepted `bid_opening` followed by a re-tally
replaces `winning_com` (see `winner_fields_overwritten_cex`). -/
theorem winner_fields_stability (sha bd : Bytes → Bytes) (ik : Bytes → RsaKey)
    (st st1 st2 st3 : AuctState) (address : String) (ring : List RsaKey)
    (c sig tau_1 sig2 tau_2 : Bytes) (b b2 : Bool)
    (hb : bid_opening sha bd st address ring c sig tau_1 = some (b, st1))
    (hi : identity_opening sha bd ik st2 sig2 tau_2 = some (b2, st3)) :
    st1.winning_com = st.winning_com ∧ st1.winning_bidder = st.winning_bidder ∧
    st3.winning_com = st2.winning_com ∧ st3.bidders = st2.bidders ∧
    (get_winning_commitment sha st).winning_bidder = st.winning_bidder ∧
    (get_winning_commitment sha (get_winning_commitment sha st)).winning_com =
      (get_winning_commitment sha st).winning_com ∧
    (b2 = true → identity_opening sha bd ik st3 sig2 tau_2 = some (true, st3)) := by
  obtain ⟨h1, h2⟩ := bid_opening_winning_fields sha bd st address ring c sig tau_1 b st1 hb
  obtain ⟨h3, h4⟩ := identity_opening_keeps sha bd ik st2 sig2 tau_2 b2 st3 hi
  refine ⟨h1, h2, h3, h4, ?_, get_winning_commitment_idem sha st, ?_⟩
  · rw [get_winning_commitment_eq]
  · intro hb2
    exact identity_opening_rerun sha bd ik st2 sig2 tau_2 b2 st3 hi hb2

theorem winner_fields_stability_witness :
    ((⟨[], none, none⟩ : AuctState).winning_com =
        (⟨[], none, none⟩ : AuctState).winning_com ∧
      (⟨[], none, none⟩ : AuctState).winning_bidder =
        (⟨[], none, none⟩ : AuctState).winning_bidder ∧
      (⟨[], none, none⟩ : AuctState).winning_com =
        (⟨[], none, none⟩ : AuctState).winning_com ∧
      (⟨[], none, none⟩ : AuctState).bidders =
        (⟨[], none, none⟩ : AuctState).bidders ∧
      (get_winning_commitment sha_take ⟨[], none, none⟩).winning_bidder =
        (⟨[], none, none⟩ : AuctState).winning_bidder ∧
      (get_winning_commitment sha_take
          (get_winning_commitment sha_take ⟨[], none, none⟩)).winning_com =
        (get_winning_commitment sha_take ⟨[], none, none⟩).winning_com ∧
      (false = true → identity_opening sha_take bd_w (fun _ => key_three)
        ⟨[], none, none⟩ (List.replicate 63 0) (List.replicate 32 0) =
          some (true, ⟨[], none, none⟩))) :=
  winner_fields_stability sha_take bd_w (fun _ => key_three)
    ⟨[], none, none⟩ ⟨[], none, none⟩ ⟨[], none, none⟩ ⟨[], none, none⟩
    "a" ring_w (List.replicate 32 0) (List.replicate 63 0) (List.replicate 32 0)
    (List.replicate 63 0) (List.replicate 32 0) false false
    (by decide) (by decide)

/-- A tally with one accepted bid of 5 and no winner recorded. -/
def st_a : AuctState :=
  ⟨[("a", ⟨5, to_bytes 5 32, List.replicate 32 0⟩)], none, none⟩

/-- `st_a` after the first tally: `winning_com` points at the bid-5 entry. -/
def st_a1 : AuctState :=
  ⟨[("a", ⟨5, to_bytes 5 32, List.replicate 32 0⟩)], some (to_bytes 5 32), none⟩

/-- `st_a1` after bidder `b`'s accepted opening of a bid of 9. -/
def st_ab : AuctState :=
  ⟨[("a", ⟨5, to_bytes 5 32, List.replicate 32 0⟩),
    ("b", ⟨9, to_bytes 9 32, List.replicate 32 0⟩)], some (to_bytes 5 32), none⟩

set_option maxRecDepth 4000 in
/-- C9 (counterexample).  `winning_com` is not write-once: after the tally
sets it to the bid-5 commitment, a subsequent accepted `bid_opening` of a
bid of 9 followed by another `get_winning_commitment` call overwrites it
with a different commitment. -/
theorem winner_fields_overwritten_cex :
    get_winning_commitment sha_take st_a = st_a1 ∧
    bid_opening sha_take bd_c4 st_a1 "b" ring_w (to_bytes 9 32) sig_w tau_w =
      some (true, st_ab) ∧
    (get_winning_commitment sha_take st_ab).winning_com = some (to_bytes 9 32) ∧
    st_a1.winning_com = some (to_bytes 5 32) ∧
    some (to_bytes 9 32) ≠ some (to_bytes 5 32) := by
  refine ⟨by decide, ?_, by decide, rfl, by decide⟩
  rw [bid_opening_spec sha_take bd_c4 st_a1 "b" ring_w (to_bytes 9 32) sig_w tau_w
    (List.replicate 768 0) (1 :: List.replicate 31 0) (List.replicate 32 0)
    C1_w (List.replicate 32 0) m1_w (to_bytes 9 32) (List.replicate 768 0)
    (List.replicate 768 0) (to_bytes 9 32) (List.replicate 32 0)
    parse_sig_sig_w parse_tau_tau_w decrypt_C1_w parse_m1_m1_w
    verify_sigma_w_not_none verify_Sigma_w_not_none]
  have hok : bid_opening_ok sha_take (to_bytes 9 32) ring_w (List.replicate 768 0)
      (1 :: List.replicate 31 0) C1_w (List.replicate 32 0) (to_bytes 9 32)
      (List.replicate 768 0) (List.replicate 768 0) (to_bytes 9 32)
      (List.replicate 32 0) = true := by decide
  rw [hok]
  decide

end Asba
